import Mathlib

/-!
Verification development for the `gpw` repository: raster population grids
are tessellated into H3 hex cells, combined into a hierarchical aggregation
tree by bottom-up sibling compaction, and served over HTTP.

Shallow embedding notes.
* H3 cell indices are opaque 64-bit keys provided by the external `h3ron`
  library.  The spec describes them as an aperture-7 hierarchy: a cell is a
  base cell plus one digit in `0..6` per resolution level.  We embed a cell
  as that pair; the numeric bit packing is external and irrelevant to every
  claim.
* `f32` values are embedded as exact rationals (`ℚ`).  Every claim that
  touches values only involves small integers and even divisions, which
  `f32` represents exactly.
* The `HexTreeMap` container (insertion with bottom-up compaction, record
  iteration, subtree reduce) lives in the external `hextree` crate and is
  not part of the repository sources; it is modelled from the spec
  (sections 3, 4.4 and 4.5).  The `SummationCompactor` callback, the
  record-stream ingestion loop, the grid parser and the tessellation logic
  are translated from the repository sources.
-/

/-- An H3 cell address: an (opaque) base cell plus one aperture-7 digit per
resolution level.  `digits.length` is the cell's resolution. -/
structure HexAddress where
  base : Nat
  digits : List (Fin 7)
deriving DecidableEq

namespace HexAddress

/-- The resolution of an address (0 = a base cell). -/
def resolution (a : HexAddress) : Nat := a.digits.length

/-- `a` is `b` itself or a coarser ancestor of `b`. -/
def ancestorOrSelf (a b : HexAddress) : Bool :=
  a.base = b.base && a.digits.isPrefixOf b.digits

/-- Two addresses are related when one is an ancestor of (or equal to) the
other. -/
def related (a b : HexAddress) : Bool :=
  ancestorOrSelf a b || ancestorOrSelf b a

end HexAddress

/-! ### The aggregation tree

Modelled from the spec: `HexTreeMap` (external `hextree` crate) is a trie
over base cells and aperture-7 digits.  A `leaf` holds a stored value (a
frontier entry), `parent` holds seven child slots, `empty` is an absent
subtree. -/

/-- One trie node of the aggregation tree. -/
inductive HexNode where
  | empty : HexNode
  | leaf (v : ℚ) : HexNode
  | parent (children : Fin 7 → HexNode) : HexNode

/-- Replace child `d` of a seven-slot child array. -/
def updChild (cs : Fin 7 → HexNode) (d : Fin 7) (n : HexNode) : Fin 7 → HexNode :=
  fun j => if j = d then n else cs j

/-- The all-empty child array. -/
def emptyChildren : Fin 7 → HexNode := fun _ => .empty

/-- The value visible to a compactor for one child slot: a child is
"present" exactly when it is a single stored entry (a leaf). -/
def childValue : HexNode → Option ℚ
  | .leaf v => some v
  | _ => none

/-- `SummationCompactor::compact` from `gpwgen/src/main.rs`: refuse to
compact below the floor resolution (`if res < self.resolution { return
None; }`), otherwise require all seven children present (`if let [Some v0,
…, Some v6] = children`) and return their sum `v0 + v1 + … + v6`. -/
def SummationCompactor.compact (floor res : Nat) (children : Fin 7 → Option ℚ) : Option ℚ :=
  if res < floor then none
  else if h : ∀ i, (children i).isSome then
    some (∑ i : Fin 7, (children i).get (h i))
  else none

/-- Modelled from the spec (section 4.4): after an insertion below a
candidate parent at resolution `r`, ask the compactor whether the seven
children collapse into a single parent entry. -/
def tryCompact (floor r : Nat) (cs : Fin 7 → HexNode) : HexNode :=
  match SummationCompactor.compact floor r (fun i => childValue (cs i)) with
  | some v => .leaf v
  | none => .parent cs

/-- Modelled from the spec (section 4.4): insert a value at the given digit
path into a trie node sitting at resolution `r`, compacting bottom-up on the
way back out.  Exhausted digits overwrite whatever is stored (duplicate keys
overwrite).  Inserting below an existing leaf (a case the spec leaves
unspecified) rebuilds the path, dropping the old entry; every choice here
keeps the structure a trie. -/
def HexNode.ins (floor : Nat) : Nat → HexNode → List (Fin 7) → ℚ → HexNode
  | _, _, [], v => .leaf v
  | r, .parent cs, d :: ds, v =>
      tryCompact floor r (updChild cs d (HexNode.ins floor (r + 1) (cs d) ds v))
  | r, _, d :: ds, v =>
      tryCompact floor r (updChild emptyChildren d (HexNode.ins floor (r + 1) .empty ds v))

/-- All frontier entries of a node: digit path (relative to the node) and
stored value, in digit order. -/
def HexNode.toRecords : HexNode → List (List (Fin 7) × ℚ)
  | .empty => []
  | .leaf v => [([], v)]
  | .parent cs =>
      (List.finRange 7).flatMap
        (fun i => ((cs i).toRecords).map (fun pr => (i :: pr.1, pr.2)))

/-- The aggregation tree: one trie per base cell, keyed by base. -/
abbrev AggTree := List (Nat × HexNode)

/-- Modelled from the spec (section 4.4): insert one record into the tree,
keyed by its full address. -/
def AggTree.insert (floor : Nat) : AggTree → HexAddress → ℚ → AggTree
  | [], a, v => [(a.base, HexNode.ins floor 0 .empty a.digits v)]
  | (b, n) :: rest, a, v =>
      if a.base = b then (b, HexNode.ins floor 0 n a.digits v) :: rest
      else (b, n) :: AggTree.insert floor rest a v

/-- All frontier entries of the tree, as full (address, value) records. -/
def AggTree.toRecords (t : AggTree) : List (HexAddress × ℚ) :=
  t.flatMap (fun bn => (bn.2.toRecords).map (fun pr => (⟨bn.1, pr.1⟩, pr.2)))

/-- The in-memory build phase of `combine` (`gpwgen/src/main.rs`): fold the
decoded records into a compacting tree. -/
def combineRecords (floor : Nat) (recs : List (HexAddress × ℚ)) : AggTree :=
  recs.foldl (fun t av => AggTree.insert floor t av.1 av.2) []

/-- What `combine` serializes: the frontier of the tree it built. -/
def combineOutput (floor : Nat) (recs : List (HexAddress × ℚ)) : List (HexAddress × ℚ) :=
  (combineRecords floor recs).toRecords

/-! ### Basic lemmas about child updates and compaction -/

theorem updChild_same (cs : Fin 7 → HexNode) (d : Fin 7) (n : HexNode) :
    updChild cs d n d = n := by
  simp [updChild]

theorem updChild_other (cs : Fin 7 → HexNode) (d j : Fin 7) (n : HexNode) (h : j ≠ d) :
    updChild cs d n j = cs j := by
  simp [updChild, h]

theorem updChild_updChild (cs : Fin 7 → HexNode) (d : Fin 7) (m n : HexNode) :
    updChild (updChild cs d m) d n = updChild cs d n := by
  funext j
  by_cases h : j = d <;> simp [updChild, h]

/-- A digit slot different from `i` (any sibling array has at least two
slots). -/
def otherIndex (i : Fin 7) : Fin 7 := if i = 0 then 1 else 0

theorem otherIndex_ne (i : Fin 7) : otherIndex i ≠ i := by
  unfold otherIndex
  by_cases h : i = 0
  · subst h; decide
  · rw [if_neg h]; exact fun e => h e.symm

theorem compact_eq_none_of_child_none (floor r : Nat) (ch : Fin 7 → Option ℚ)
    (j : Fin 7) (hj : ch j = none) :
    SummationCompactor.compact floor r ch = none := by
  unfold SummationCompactor.compact
  split
  · rfl
  · have hne : ¬ ∀ i, (ch i).isSome := by
      intro hall
      have h2 := hall j
      rw [hj] at h2
      simp at h2
    rw [dif_neg hne]

theorem compact_eq_some (floor r : Nat) (f : Fin 7 → ℚ) (hr : ¬ r < floor) :
    SummationCompactor.compact floor r (fun i => some (f i)) =
      some (f 0 + f 1 + f 2 + f 3 + f 4 + f 5 + f 6) := by
  unfold SummationCompactor.compact
  have hc : ∀ i : Fin 7, ((fun i => some (f i)) i).isSome = true := fun i => rfl
  rw [if_neg hr, dif_pos hc]
  simp [Fin.sum_univ_seven]

theorem tryCompact_eq_parent (floor r : Nat) (cs : Fin 7 → HexNode)
    (j : Fin 7) (hj : childValue (cs j) = none) :
    tryCompact floor r cs = .parent cs := by
  unfold tryCompact
  rw [compact_eq_none_of_child_none floor r _ j hj]

theorem tryCompact_eq_leaf (floor r : Nat) (cs : Fin 7 → HexNode) (f : Fin 7 → ℚ)
    (hr : ¬ r < floor) (hall : ∀ i, childValue (cs i) = some (f i)) :
    tryCompact floor r cs = .leaf (f 0 + f 1 + f 2 + f 3 + f 4 + f 5 + f 6) := by
  unfold tryCompact
  rw [show (fun i => childValue (cs i)) = fun i => some (f i) from funext hall,
    compact_eq_some floor r f hr]

theorem ins_nil (floor r : Nat) (n : HexNode) (v : ℚ) :
    HexNode.ins floor r n [] v = .leaf v := by
  cases n <;> rfl

theorem ins_parent (floor r : Nat) (cs : Fin 7 → HexNode) (d : Fin 7)
    (ds : List (Fin 7)) (v : ℚ) :
    HexNode.ins floor r (.parent cs) (d :: ds) v =
      tryCompact floor r (updChild cs d (HexNode.ins floor (r + 1) (cs d) ds v)) := rfl

theorem ins_empty (floor r : Nat) (d : Fin 7) (ds : List (Fin 7)) (v : ℚ) :
    HexNode.ins floor r .empty (d :: ds) v =
      tryCompact floor r
        (updChild emptyChildren d (HexNode.ins floor (r + 1) .empty ds v)) := rfl

/-! ### Single-path trees

`chainNode ds n` is the tree consisting of one chain of parents along the
digit path `ds` ending in `n`; it is what insertion into an empty tree
builds.  Since every chain node has at least six absent children, no chain
node ever compacts. -/

def chainNode : List (Fin 7) → HexNode → HexNode
  | [], n => n
  | d :: ds, n => .parent (updChild emptyChildren d (chainNode ds n))

theorem childValue_chainNode_parent (ds : List (Fin 7)) (cs : Fin 7 → HexNode) :
    childValue (chainNode ds (.parent cs)) = none := by
  cases ds <;> rfl

theorem ins_fresh (floor : Nat) (ds : List (Fin 7)) :
    ∀ (r : Nat) (i : Fin 7) (v : ℚ),
      HexNode.ins floor r .empty (ds ++ [i]) v =
        chainNode ds (.parent (updChild emptyChildren i (.leaf v))) := by
  induction ds with
  | nil =>
      intro r i v
      rw [List.nil_append, ins_empty, ins_nil]
      exact tryCompact_eq_parent _ _ _ (otherIndex i)
        (by rw [updChild_other _ _ _ _ (otherIndex_ne i)]; rfl)
  | cons d ds ih =>
      intro r i v
      rw [List.cons_append, ins_empty, ih]
      exact tryCompact_eq_parent _ _ _ d
        (by rw [updChild_same]; exact childValue_chainNode_parent ds _)

theorem chain_ins (floor : Nat) (ds : List (Fin 7)) :
    ∀ (r : Nat) (m : HexNode) (rest : List (Fin 7)) (v : ℚ),
      HexNode.ins floor r (chainNode ds m) (ds ++ rest) v =
        chainNode ds (HexNode.ins floor (r + ds.length) m rest v) := by
  induction ds with
  | nil => intro r m rest v; simp [chainNode]
  | cons d ds ih =>
      intro r m rest v
      rw [List.cons_append]
      show HexNode.ins floor r (.parent (updChild emptyChildren d (chainNode ds m)))
        (d :: (ds ++ rest)) v = _
      rw [ins_parent, updChild_same, ih, updChild_updChild]
      rw [show r + 1 + ds.length = r + (d :: ds).length by simp; omega]
      exact tryCompact_eq_parent _ _ _ (otherIndex d)
        (by rw [updChild_other _ _ _ _ (otherIndex_ne d)]; rfl)

/-! ### Inserting a complete sibling set -/

/-- The child array holding the first `k` of the seven sibling leaves
`1, 2, …, 7` (slot `j` holds `j + 1`). -/
def siblingsFilled (k : Nat) : Fin 7 → HexNode :=
  fun j => if j.val < k then .leaf ((j.val : ℚ) + 1) else .empty

theorem siblingsFilled_zero : siblingsFilled 0 = emptyChildren := by
  funext j
  simp [siblingsFilled, emptyChildren]

theorem upd_fill (k : Fin 7) :
    updChild (siblingsFilled k.val) k (.leaf ((k.val : ℚ) + 1)) =
      siblingsFilled (k.val + 1) := by
  funext j
  by_cases h : j = k
  · subst h
    simp [updChild, siblingsFilled]
  · rw [updChild_other _ _ _ _ h]
    have hv : j.val ≠ k.val := fun e => h (Fin.ext e)
    simp only [siblingsFilled]
    by_cases h2 : j.val < k.val
    · rw [if_pos h2, if_pos (by omega)]
    · rw [if_neg h2, if_neg (by omega)]

theorem fill_partial (floor r k : Nat) (hk : k < 7) :
    tryCompact floor r (siblingsFilled k) = .parent (siblingsFilled k) := by
  refine tryCompact_eq_parent _ _ _ ⟨k, hk⟩ ?_
  simp [siblingsFilled, childValue]

theorem fill_full (floor r : Nat) (hr : ¬ r < floor) :
    tryCompact floor r (siblingsFilled 7) = .leaf 28 := by
  have hall : ∀ i : Fin 7, childValue (siblingsFilled 7 i) = some ((i.val : ℚ) + 1) := by
    intro i
    simp [siblingsFilled, childValue, i.isLt]
  rw [tryCompact_eq_leaf floor r _ _ hr hall]
  norm_num [show ((3 : Fin 7)).val = 3 from rfl, show ((4 : Fin 7)).val = 4 from rfl,
    show ((5 : Fin 7)).val = 5 from rfl, show ((6 : Fin 7)).val = 6 from rfl]

/-- The seven children of the parent cell `⟨b, ds⟩`, carrying the values
`1, 2, …, 7` (the spec's section 8 example). -/
def sevenSiblingRecords (b : Nat) (ds : List (Fin 7)) : List (HexAddress × ℚ) :=
  (List.finRange 7).map (fun i => (⟨b, ds ++ [i]⟩, (i.val : ℚ) + 1))

theorem insert_sib_first (floor : Nat) (b : Nat) (ds : List (Fin 7)) :
    AggTree.insert floor [] ⟨b, ds ++ [(0 : Fin 7)]⟩ (((0 : Fin 7).val : ℚ) + 1) =
      [(b, chainNode ds (.parent (siblingsFilled 1)))] := by
  show [(b, HexNode.ins floor 0 .empty (ds ++ [(0 : Fin 7)]) _)] = _
  rw [ins_fresh, show emptyChildren = siblingsFilled ((0 : Fin 7).val) from
    siblingsFilled_zero.symm, upd_fill, show ((0 : Fin 7)).val + 1 = 1 from rfl]

theorem insert_sib_core (floor : Nat) (b : Nat) (ds : List (Fin 7)) (k : Fin 7) :
    AggTree.insert floor [(b, chainNode ds (.parent (siblingsFilled k.val)))]
        ⟨b, ds ++ [k]⟩ ((k.val : ℚ) + 1) =
      [(b, chainNode ds (tryCompact floor ds.length (siblingsFilled (k.val + 1))))] := by
  show (if b = b then _ else _) = _
  rw [if_pos rfl, chain_ins, ins_parent, ins_nil, upd_fill]
  rw [show (0 : Nat) + ds.length = ds.length by omega]

theorem flatMap_single {α : Type} (f : Fin 7 → List α) (d : Fin 7)
    (h : ∀ j, j ≠ d → f j = []) :
    (List.finRange 7).flatMap f = f d := by
  fin_cases d <;>
    simp [show List.finRange 7 = [0, 1, 2, 3, 4, 5, 6] from rfl, h]

theorem chainNode_toRecords (ds : List (Fin 7)) (n : HexNode) :
    (chainNode ds n).toRecords = n.toRecords.map (fun pr => (ds ++ pr.1, pr.2)) := by
  induction ds with
  | nil => simp [chainNode]
  | cons d ds ih =>
      show HexNode.toRecords (.parent (updChild emptyChildren d (chainNode ds n))) = _
      rw [HexNode.toRecords,
        flatMap_single _ d (fun j hj => by
          rw [updChild_other _ _ _ _ hj]
          rfl),
        updChild_same, ih]
      simp

theorem combine_seven_siblings (b : Nat) (ds : List (Fin 7)) :
    combineOutput ds.length (sevenSiblingRecords b ds) = [(⟨b, ds⟩, 28)] := by
  have hrecs : sevenSiblingRecords b ds =
      [(⟨b, ds ++ [(0 : Fin 7)]⟩, ((0 : Nat) : ℚ) + 1),
       (⟨b, ds ++ [(1 : Fin 7)]⟩, ((1 : Nat) : ℚ) + 1),
       (⟨b, ds ++ [(2 : Fin 7)]⟩, ((2 : Nat) : ℚ) + 1),
       (⟨b, ds ++ [(3 : Fin 7)]⟩, ((3 : Nat) : ℚ) + 1),
       (⟨b, ds ++ [(4 : Fin 7)]⟩, ((4 : Nat) : ℚ) + 1),
       (⟨b, ds ++ [(5 : Fin 7)]⟩, ((5 : Nat) : ℚ) + 1),
       (⟨b, ds ++ [(6 : Fin 7)]⟩, ((6 : Nat) : ℚ) + 1)] := rfl
  unfold combineOutput combineRecords
  rw [hrecs]
  simp only [List.foldl_cons, List.foldl_nil]
  have h0 := insert_sib_first ds.length b ds
  rw [show ((0 : Fin 7)).val = 0 from rfl] at h0
  rw [h0]
  have h1 := insert_sib_core ds.length b ds (1 : Fin 7)
  rw [show ((1 : Fin 7)).val = 1 from rfl, show (1 : Nat) + 1 = 2 from rfl,
    fill_partial ds.length ds.length 2 (by omega)] at h1
  rw [h1]
  have h2 := insert_sib_core ds.length b ds (2 : Fin 7)
  rw [show ((2 : Fin 7)).val = 2 from rfl, show (2 : Nat) + 1 = 3 from rfl,
    fill_partial ds.length ds.length 3 (by omega)] at h2
  rw [h2]
  have h3 := insert_sib_core ds.length b ds (3 : Fin 7)
  rw [show ((3 : Fin 7)).val = 3 from rfl, show (3 : Nat) + 1 = 4 from rfl,
    fill_partial ds.length ds.length 4 (by omega)] at h3
  rw [h3]
  have h4 := insert_sib_core ds.length b ds (4 : Fin 7)
  rw [show ((4 : Fin 7)).val = 4 from rfl, show (4 : Nat) + 1 = 5 from rfl,
    fill_partial ds.length ds.length 5 (by omega)] at h4
  rw [h4]
  have h5 := insert_sib_core ds.length b ds (5 : Fin 7)
  rw [show ((5 : Fin 7)).val = 5 from rfl, show (5 : Nat) + 1 = 6 from rfl,
    fill_partial ds.length ds.length 6 (by omega)] at h5
  rw [h5]
  have h6 := insert_sib_core ds.length b ds (6 : Fin 7)
  rw [show ((6 : Fin 7)).val = 6 from rfl, show (6 : Nat) + 1 = 7 from rfl,
    fill_full ds.length ds.length (lt_irrefl ds.length)] at h6
  rw [h6]
  simp [AggTree.toRecords, chainNode_toRecords, HexNode.toRecords]

/-! ### The floor bound: every stored entry of a built tree sits at or below
the floor resolution, provided the inserted records do -/

/-- All frontier entries of `n` (a node at resolution `r`) lie at
resolution ≥ `floor`. -/
def resOK (floor : Nat) : Nat → HexNode → Prop
  | _, .empty => True
  | r, .leaf _ => floor ≤ r
  | r, .parent cs => ∀ i, resOK floor (r + 1) (cs i)

theorem resOK_tryCompact (floor r : Nat) (cs : Fin 7 → HexNode)
    (h : ∀ i, resOK floor (r + 1) (cs i)) :
    resOK floor r (tryCompact floor r cs) := by
  unfold tryCompact
  cases hc : SummationCompactor.compact floor r (fun i => childValue (cs i)) with
  | none => exact h
  | some v =>
      show floor ≤ r
      by_contra hlt
      unfold SummationCompactor.compact at hc
      rw [if_pos (by omega)] at hc
      exact Option.noConfusion hc

theorem resOK_ins (floor : Nat) (ds : List (Fin 7)) :
    ∀ (r : Nat) (n : HexNode) (v : ℚ), resOK floor r n → floor ≤ r + ds.length →
      resOK floor r (HexNode.ins floor r n ds v) := by
  induction ds with
  | nil =>
      intro r n v _ hlen
      rw [ins_nil]
      show floor ≤ r
      simpa using hlen
  | cons d ds ih =>
      intro r n v hn hlen
      have hlen2 : floor ≤ (r + 1) + ds.length := by
        simp only [List.length_cons] at hlen
        omega
      cases n with
      | parent cs =>
          rw [ins_parent]
          apply resOK_tryCompact
          intro i
          by_cases h : i = d
          · subst h
            rw [updChild_same]
            exact ih (r + 1) (cs i) v (hn i) hlen2
          · rw [updChild_other _ _ _ _ h]
            exact hn i
      | empty =>
          rw [ins_empty]
          apply resOK_tryCompact
          intro i
          by_cases h : i = d
          · subst h
            rw [updChild_same]
            exact ih (r + 1) .empty v trivial hlen2
          · rw [updChild_other _ _ _ _ h]
            trivial
      | leaf w =>
          show resOK floor r (tryCompact floor r
            (updChild emptyChildren d (HexNode.ins floor (r + 1) .empty ds v)))
          apply resOK_tryCompact
          intro i
          by_cases h : i = d
          · subst h
            rw [updChild_same]
            exact ih (r + 1) .empty v trivial hlen2
          · rw [updChild_other _ _ _ _ h]
            trivial

theorem resOK_toRecords (floor : Nat) :
    ∀ (n : HexNode) (r : Nat), resOK floor r n →
      ∀ pr ∈ n.toRecords, floor ≤ r + pr.1.length := by
  intro n
  induction n with
  | empty =>
      intro r _ pr hpr
      simp [HexNode.toRecords] at hpr
  | leaf v =>
      intro r h pr hpr
      simp only [HexNode.toRecords, List.mem_singleton] at hpr
      subst hpr
      simpa using h
  | parent cs ih =>
      intro r h pr hpr
      simp only [HexNode.toRecords, List.mem_flatMap, List.mem_map] at hpr
      obtain ⟨i, hi, pr2, hmem, heq⟩ := hpr
      subst heq
      have := ih i (r + 1) (h i) pr2 hmem
      simp only [List.length_cons]
      omega

/-- All tries of the tree have their entries at resolution ≥ `floor`. -/
def treeResOK (floor : Nat) (t : AggTree) : Prop := ∀ bn ∈ t, resOK floor 0 bn.2

theorem treeResOK_insert (floor : Nat) (t : AggTree) (a : HexAddress) (v : ℚ)
    (ht : treeResOK floor t) (ha : floor ≤ a.digits.length) :
    treeResOK floor (AggTree.insert floor t a v) := by
  induction t with
  | nil =>
      intro bn hbn
      simp only [AggTree.insert, List.mem_singleton] at hbn
      subst hbn
      exact resOK_ins floor a.digits 0 .empty v trivial (by omega)
  | cons hd tl ih =>
      obtain ⟨b, n⟩ := hd
      intro bn hbn
      simp only [AggTree.insert] at hbn
      by_cases hb : a.base = b
      · rw [if_pos hb] at hbn
        rcases List.mem_cons.mp hbn with h1 | h1
        · subst h1
          exact resOK_ins floor a.digits 0 n v (ht (b, n) (List.mem_cons_self _ _)) (by omega)
        · exact ht bn (List.mem_cons_of_mem _ h1)
      · rw [if_neg hb] at hbn
        rcases List.mem_cons.mp hbn with h1 | h1
        · subst h1
          exact ht (b, n) (List.mem_cons_self _ _)
        · exact ih (fun e he => ht e (List.mem_cons_of_mem _ he)) bn h1

theorem treeResOK_fold (floor : Nat) (recs : List (HexAddress × ℚ)) :
    ∀ (t : AggTree), treeResOK floor t →
      (∀ rec ∈ recs, floor ≤ rec.1.digits.length) →
      treeResOK floor (recs.foldl (fun t av => AggTree.insert floor t av.1 av.2) t) := by
  induction recs with
  | nil => intro t ht _; simpa using ht
  | cons rec recs ih =>
      intro t ht hrecs
      rw [List.foldl_cons]
      exact ih _ (treeResOK_insert floor t rec.1 rec.2 ht
          (hrecs rec (List.mem_cons_self _ _)))
        (fun e he => hrecs e (List.mem_cons_of_mem _ he))

theorem combineOutput_floor (floor : Nat) (recs : List (HexAddress × ℚ))
    (h : ∀ rec ∈ recs, floor ≤ rec.1.resolution) :
    ∀ rec ∈ combineOutput floor recs, floor ≤ rec.1.resolution := by
  intro rec hrec
  have htree : treeResOK floor (combineRecords floor recs) :=
    treeResOK_fold floor recs [] (fun e he => absurd he (List.not_mem_nil e)) h
  unfold combineOutput AggTree.toRecords at hrec
  simp only [List.mem_flatMap, List.mem_map] at hrec
  obtain ⟨bn, hbn, pr, hpr, rfl⟩ := hrec
  have := resOK_toRecords floor bn.2 0 (htree bn hbn) pr hpr
  simpa [HexAddress.resolution] using this

/-! ### The frontier invariant: stored addresses are pairwise unrelated -/

theorem nodePaths_pairwise :
    ∀ n : HexNode,
      n.toRecords.Pairwise (fun p q => ¬ (p.1 <+: q.1) ∧ ¬ (q.1 <+: p.1)) := by
  intro n
  induction n with
  | empty => simp [HexNode.toRecords]
  | leaf v => simp [HexNode.toRecords]
  | parent cs ih =>
      rw [HexNode.toRecords, List.pairwise_flatMap]
      constructor
      · intro i _
        rw [List.pairwise_map]
        apply (ih i).imp
        intro p q hpq
        exact ⟨fun hp => hpq.1 (List.cons_prefix_cons.mp hp).2,
          fun hp => hpq.2 (List.cons_prefix_cons.mp hp).2⟩
      · refine (List.nodup_finRange 7).imp ?_
        intro i j hne x hx y hy
        simp only [List.mem_map] at hx hy
        obtain ⟨p, _, rfl⟩ := hx
        obtain ⟨q, _, rfl⟩ := hy
        exact ⟨fun hp => hne (List.cons_prefix_cons.mp hp).1,
          fun hp => hne ((List.cons_prefix_cons.mp hp).1).symm⟩

theorem mem_insert_keys (floor : Nat) (a : HexAddress) (v : ℚ) (c : Nat) :
    ∀ t : AggTree, c ∈ (AggTree.insert floor t a v).map Prod.fst →
      c ∈ t.map Prod.fst ∨ c = a.base := by
  intro t
  induction t with
  | nil =>
      intro h
      simp only [AggTree.insert, List.map_cons, List.map_nil, List.mem_singleton] at h
      right; exact h
  | cons hd tl ih =>
      obtain ⟨b, n⟩ := hd
      intro h
      by_cases hb : a.base = b
      · simp only [AggTree.insert, if_pos hb, List.map_cons, List.mem_cons] at h ⊢
        left; exact h
      · simp only [AggTree.insert, if_neg hb, List.map_cons, List.mem_cons] at h ⊢
        rcases h with h | h
        · left; left; exact h
        · rcases ih h with h2 | h2
          · left; right; exact h2
          · right; exact h2

theorem insert_keys_nodup (floor : Nat) (a : HexAddress) (v : ℚ) :
    ∀ t : AggTree, (t.map Prod.fst).Nodup →
      ((AggTree.insert floor t a v).map Prod.fst).Nodup := by
  intro t
  induction t with
  | nil => intro _; simp [AggTree.insert]
  | cons hd tl ih =>
      obtain ⟨b, n⟩ := hd
      intro hn
      simp only [List.map_cons, List.nodup_cons] at hn
      by_cases hb : a.base = b
      · simp only [AggTree.insert, if_pos hb, List.map_cons, List.nodup_cons]
        exact hn
      · simp only [AggTree.insert, if_neg hb, List.map_cons, List.nodup_cons]
        refine ⟨fun hmem => ?_, ih hn.2⟩
        rcases mem_insert_keys floor a v b tl hmem with h2 | h2
        · exact hn.1 h2
        · exact hb h2.symm

theorem combine_keys_nodup (floor : Nat) (recs : List (HexAddress × ℚ)) :
    ((combineRecords floor recs).map Prod.fst).Nodup := by
  suffices hgen : ∀ (t : AggTree), (t.map Prod.fst).Nodup →
      ((recs.foldl (fun t av => AggTree.insert floor t av.1 av.2) t).map Prod.fst).Nodup by
    exact hgen [] (by simp)
  induction recs with
  | nil => intro t ht; simpa using ht
  | cons rec recs ih =>
      intro t ht
      rw [List.foldl_cons]
      exact ih _ (insert_keys_nodup floor rec.1 rec.2 t ht)

theorem aggTree_records_pairwise (t : AggTree)
    (hkeys : (t.map Prod.fst).Nodup) :
    (AggTree.toRecords t).Pairwise (fun p q => HexAddress.related p.1 q.1 = false) := by
  unfold AggTree.toRecords
  rw [List.pairwise_flatMap]
  constructor
  · intro bn _
    rw [List.pairwise_map]
    apply (nodePaths_pairwise bn.2).imp
    intro p q hpq
    simp only [HexAddress.related, HexAddress.ancestorOrSelf, Bool.or_eq_false_iff,
      Bool.and_eq_false_iff]
    constructor
    · right
      rw [← Bool.not_eq_true, List.isPrefixOf_iff_prefix]
      exact hpq.1
    · right
      rw [← Bool.not_eq_true, List.isPrefixOf_iff_prefix]
      exact hpq.2
  · have hkeys2 : t.Pairwise (fun e1 e2 => e1.1 ≠ e2.1) := List.pairwise_map.mp hkeys
    refine hkeys2.imp ?_
    intro e1 e2 hne x hx y hy
    simp only [List.mem_map] at hx hy
    obtain ⟨p, _, rfl⟩ := hx
    obtain ⟨q, _, rfl⟩ := hy
    simp [HexAddress.related, HexAddress.ancestorOrSelf, hne, Ne.symm hne]

/-! ### Record-stream ingestion (the `combine` read loop)

The loop in `gpwgen/src/main.rs` reads, per iteration, an 8-byte
little-endian `u64` then a 4-byte little-endian `f32`.  An `UnexpectedEof`
from the `u64` read breaks the loop cleanly (second match arm); any error
from the `f32` read — including `UnexpectedEof` mid-record — is propagated
by `err?` (fourth arm).  A byte stream is a list of byte values; a decoded
record is kept as its raw (address bits, value bits) pair, since no claim
depends on the numeric interpretation of the bytes. -/

/-- Little-endian accumulation of a byte list into one unsigned integer. -/
def leNat (bs : List Nat) : Nat := bs.foldr (fun b acc => b + 256 * acc) 0

/-- The `combine` read loop over the remaining bytes of one source.
`Except.error` is the propagated io error (the `err?` arms); `ok` returns
the records read before a clean break. -/
def combineIngest : List Nat → Except Unit (List (Nat × Nat))
  | b0 :: b1 :: b2 :: b3 :: b4 :: b5 :: b6 :: b7 :: b8 :: b9 :: b10 :: b11 :: rest =>
      (combineIngest rest).map
        (fun recs =>
          (leNat [b0, b1, b2, b3, b4, b5, b6, b7], leNat [b8, b9, b10, b11]) :: recs)
  | [] => .ok []
  | bs => if 8 ≤ bs.length then .error () else .ok []

theorem combineIngest_spec (bs : List Nat) :
    ((combineIngest bs).isOk = true ↔ bs.length % 12 < 8) ∧
    (bs.length % 12 = 0 →
      ∃ recs, combineIngest bs = .ok recs ∧ recs.length = bs.length / 12) := by
  suffices H : ∀ (n : Nat) (bs : List Nat), bs.length ≤ n →
      (((combineIngest bs).isOk = true ↔ bs.length % 12 < 8) ∧
        (bs.length % 12 = 0 →
          ∃ recs, combineIngest bs = .ok recs ∧ recs.length = bs.length / 12)) by
    exact H bs.length bs le_rfl
  intro n
  induction n with
  | zero =>
      intro bs hbs
      have hb : bs = [] := List.eq_nil_of_length_eq_zero (by omega)
      subst hb
      exact ⟨by simp [combineIngest, Except.isOk, Except.toBool],
        fun _ => ⟨[], by simp [combineIngest]⟩⟩
  | succ n ih =>
      intro bs hbs
      rcases bs with _ | ⟨b0, _ | ⟨b1, _ | ⟨b2, _ | ⟨b3, _ | ⟨b4, _ | ⟨b5, _ | ⟨b6, _ |
        ⟨b7, _ | ⟨b8, _ | ⟨b9, _ | ⟨b10, _ | ⟨b11, rest⟩⟩⟩⟩⟩⟩⟩⟩⟩⟩⟩⟩
      · exact ⟨by simp [combineIngest, Except.isOk, Except.toBool],
          fun _ => ⟨[], by simp [combineIngest]⟩⟩
      · exact ⟨by simp [combineIngest, Except.isOk, Except.toBool], by simp⟩
      · exact ⟨by simp [combineIngest, Except.isOk, Except.toBool], by simp⟩
      · exact ⟨by simp [combineIngest, Except.isOk, Except.toBool], by simp⟩
      · exact ⟨by simp [combineIngest, Except.isOk, Except.toBool], by simp⟩
      · exact ⟨by simp [combineIngest, Except.isOk, Except.toBool], by simp⟩
      · exact ⟨by simp [combineIngest, Except.isOk, Except.toBool], by simp⟩
      · exact ⟨by simp [combineIngest, Except.isOk, Except.toBool], by simp⟩
      · exact ⟨by simp [combineIngest, Except.isOk, Except.toBool], by simp⟩
      · exact ⟨by simp [combineIngest, Except.isOk, Except.toBool], by simp⟩
      · exact ⟨by simp [combineIngest, Except.isOk, Except.toBool], by simp⟩
      · exact ⟨by simp [combineIngest, Except.isOk, Except.toBool], by simp⟩
      · have hrest : rest.length ≤ n := by
          simp only [List.length_cons] at hbs
          omega
        obtain ⟨ih1, ih2⟩ := ih rest hrest
        have hlen : (b0 :: b1 :: b2 :: b3 :: b4 :: b5 :: b6 :: b7 :: b8 :: b9 :: b10 ::
            b11 :: rest).length = rest.length + 12 := by simp
        constructor
        · rw [hlen, show combineIngest (b0 :: b1 :: b2 :: b3 :: b4 :: b5 :: b6 :: b7 ::
            b8 :: b9 :: b10 :: b11 :: rest) =
            (combineIngest rest).map (fun recs =>
              (leNat [b0, b1, b2, b3, b4, b5, b6, b7],
                leNat [b8, b9, b10, b11]) :: recs) from rfl]
          cases hres : combineIngest rest with
          | ok recs =>
              rw [hres] at ih1
              simp [Except.map, Except.isOk, Except.toBool] at ih1 ⊢
              omega
          | error e =>
              rw [hres] at ih1
              simp [Except.map, Except.isOk, Except.toBool] at ih1 ⊢
              omega
        · intro hmod
          rw [hlen] at hmod ⊢
          have hmod2 : rest.length % 12 = 0 := by omega
          obtain ⟨recs, hrecs, hlen2⟩ := ih2 hmod2
          refine ⟨(leNat [b0, b1, b2, b3, b4, b5, b6, b7],
            leNat [b8, b9, b10, b11]) :: recs, ?_, ?_⟩
          · rw [show combineIngest (b0 :: b1 :: b2 :: b3 :: b4 :: b5 :: b6 :: b7 :: b8 ::
                b9 :: b10 :: b11 :: rest) =
                (combineIngest rest).map (fun recs =>
                  (leNat [b0, b1, b2, b3, b4, b5, b6, b7],
                    leNat [b8, b9, b10, b11]) :: recs) from rfl, hrecs]
            rfl
          · simp only [List.length_cons, hlen2]
            omega

/-! ### Grid-file parsing (`gpwgen/src/gpwascii.rs`, and the variant in
`src/lib.rs`)

The reader is abstracted to its sequence of lines, and each line to its
list of whitespace-separated tokens (Rust's `split_whitespace`).  Rust's
numeric `parse` on a token is external; it is modelled on plain decimal
notation (sign, digits, optional fraction), which covers every token any
claim touches.  io errors do not arise in the pure model. -/

/-- Decimal digit run to a number, `none` if empty or non-digit. -/
def digitsToNat (cs : List Char) : Option Nat :=
  if cs = [] then none
  else if cs.all Char.isDigit then
    some (cs.foldl (fun acc c => 10 * acc + (c.toNat - 48)) 0)
  else none

/-- Model of Rust `str::parse::<usize>()`: optional leading `+`, then
decimal digits. -/
def parseNatTok (s : String) : Option Nat :=
  match s.toList with
  | '+' :: cs => digitsToNat cs
  | cs => digitsToNat cs

/-- Unsigned decimal (with optional fraction) to an exact rational. -/
def parsePosQ (cs : List Char) : Option ℚ :=
  match digitsToNat (cs.takeWhile Char.isDigit) with
  | none => none
  | some ip =>
      match cs.dropWhile Char.isDigit with
      | [] => some (ip : ℚ)
      | '.' :: frac =>
          match digitsToNat frac with
          | none => none
          | some fp => some ((ip : ℚ) + (fp : ℚ) / (10 : ℚ) ^ frac.length)
      | _ => none

/-- Model of Rust `str::parse` into a float, restricted to plain decimal
notation. -/
def parseQTok (s : String) : Option ℚ :=
  match s.toList with
  | '-' :: cs => (parsePosQ cs).map (fun q => -q)
  | '+' :: cs => parsePosQ cs
  | cs => parsePosQ cs

/-- The six-field grid header (`GpwAsciiHeader` in the sources). -/
structure GpwAsciiHeader where
  ncols : Nat
  nrows : Nat
  xllcorner : ℚ
  yllcorner : ℚ
  cellsize : ℚ
  nodata_value : String
deriving DecidableEq

/-- The accumulator of `GpwAsciiHeader::parse`: one mutable `Option` per
field. -/
structure HdrState where
  ncols : Option Nat := none
  nrows : Option Nat := none
  xllcorner : Option ℚ := none
  yllcorner : Option ℚ := none
  cellsize : Option ℚ := none
  nodata_value : Option String := none

/-- One iteration of the header loop.  Errors are `GpwError::Parse` tags.
A line with no tokens is skipped.  Note the source tags a failed *parse* of
the `nrows` value with `"ncols"` (`.map_err(|e| ("ncols", e))` on the
`nrows` branch), while a *missing* `nrows` value is tagged `"nrows"`. -/
def headerLine (st : HdrState) (tokens : List String) : Except String HdrState :=
  match tokens with
  | [] => .ok st
  | key :: rest =>
      match key with
      | "ncols" =>
          match rest.head? with
          | none => .error "ncols"
          | some w =>
              match parseNatTok w with
              | none => .error "ncols"
              | some n => .ok { st with ncols := some n }
      | "nrows" =>
          match rest.head? with
          | none => .error "nrows"
          | some w =>
              match parseNatTok w with
              | none => .error "ncols"
              | some n => .ok { st with nrows := some n }
      | "xllcorner" =>
          match rest.head? with
          | none => .error "xllcorner"
          | some w =>
              match parseQTok w with
              | none => .error "xllcorner"
              | some q => .ok { st with xllcorner := some q }
      | "yllcorner" =>
          match rest.head? with
          | none => .error "yllcorner"
          | some w =>
              match parseQTok w with
              | none => .error "yllcorner"
              | some q => .ok { st with yllcorner := some q }
      | "cellsize" =>
          match rest.head? with
          | none => .error "cellsize"
          | some w =>
              match parseQTok w with
              | none => .error "cellsize"
              | some q => .ok { st with cellsize := some q }
      | "NODATA_value" =>
          match rest.head? with
          | none => .error "NODATA_value"
          | some w => .ok { st with nodata_value := some w }
      | _ => .error "unexpected header token"

/-- `GpwAsciiHeader::parse`: six `read_line` iterations (lines past EOF
behave as token-less lines), then all six fields must be present. -/
def GpwAsciiHeader.parse (lines : List (List String)) : Except String GpwAsciiHeader :=
  match (lines.take 6).foldl
      (fun (acc : Except String HdrState) l => acc.bind (fun st => headerLine st l))
      (Except.ok {}) with
  | .error t => .error t
  | .ok st =>
      match st.ncols, st.nrows, st.xllcorner, st.yllcorner, st.cellsize,
          st.nodata_value with
      | some a, some b, some c, some d, some e, some f => .ok ⟨a, b, c, d, e, f⟩
      | _, _, _, _, _, _ => .error "incomplete header"

/-- Outcome of a parse that can also abort the process: `err` is a returned
`GpwError`, `panicked` an `assert_eq!` failure (no value is ever
returned). -/
inductive POutcome (α : Type) where
  | ok (a : α)
  | err (tag : String)
  | panicked
deriving DecidableEq

def POutcome.isErr {α : Type} : POutcome α → Bool
  | .err _ => true
  | _ => false

def POutcome.isOk {α : Type} : POutcome α → Bool
  | .ok _ => true
  | _ => false

/-- One body row: each token equal to the nodata sentinel is a missing
sample, anything else must parse as a float (failure is tagged
`"cell parse error"`). -/
def parseRow (nodata : String) : List String → POutcome (List (Option ℚ))
  | [] => .ok []
  | t :: ts =>
      if t = nodata then
        match parseRow nodata ts with
        | .ok row => .ok (none :: row)
        | e => e
      else
        match parseQTok t with
        | none => .err "cell parse error"
        | some q =>
            match parseRow nodata ts with
            | .ok row => .ok (some q :: row)
            | e => e

/-- The body loop.  `checks` is whether the per-row
`assert_eq!(row.len(), header.ncols)` is active: `gpwgen/src/gpwascii.rs`
uses `assert_eq!` (always active), `src/lib.rs` uses `debug_assert_eq!`
(active only with debug assertions). -/
def parseBodyGo (checks : Bool) (nodata : String) (ncols : Nat) :
    List (List String) → POutcome (List (List (Option ℚ)))
  | [] => .ok []
  | l :: ls =>
      match parseRow nodata l with
      | .err t => .err t
      | .panicked => .panicked
      | .ok row =>
          if checks ∧ row.length ≠ ncols then .panicked
          else
            match parseBodyGo checks nodata ncols ls with
            | .ok rows => .ok (row :: rows)
            | e => e

/-- A parsed grid document. -/
structure GpwAscii where
  header : GpwAsciiHeader
  data : List (List (Option ℚ))
deriving DecidableEq

/-- `GpwAscii::parse`, generic over whether the row/row-count assertions
are active. -/
def parseGrid (checks : Bool) (lines : List (List String)) : POutcome GpwAscii :=
  match GpwAsciiHeader.parse lines with
  | .error t => .err t
  | .ok hdr =>
      match parseBodyGo checks hdr.nodata_value hdr.ncols (lines.drop 6) with
      | .err t => .err t
      | .panicked => .panicked
      | .ok rows =>
          if checks ∧ rows.length ≠ hdr.nrows then .panicked
          else .ok ⟨hdr, rows⟩

/-- `GpwAscii::parse` of `gpwgen/src/gpwascii.rs`: `assert_eq!` is active
in every build configuration. -/
def GpwAscii.parse (lines : List (List String)) : POutcome GpwAscii :=
  parseGrid true lines

/-- `GpwAscii::parse` of `src/lib.rs`: `debug_assert_eq!` is active only
when the build has debug assertions enabled. -/
def GpwAsciiLib.parse (debugAssertions : Bool) (lines : List (List String)) :
    POutcome GpwAscii :=
  parseGrid debugAssertions lines

theorem parseRow_length (nodata : String) :
    ∀ (l : List String) (row : List (Option ℚ)),
      parseRow nodata l = .ok row → row.length = l.length := by
  intro l
  induction l with
  | nil =>
      intro row h
      simp only [parseRow] at h
      cases h
      rfl
  | cons t ts ih =>
      intro row h
      simp only [parseRow] at h
      by_cases ht : t = nodata
      · rw [if_pos ht] at h
        cases hrec : parseRow nodata ts with
        | ok row2 =>
            rw [hrec] at h
            cases h
            simp [ih row2 hrec]
        | err t2 => rw [hrec] at h; cases h
        | panicked => rw [hrec] at h; cases h
      · rw [if_neg ht] at h
        cases hq : parseQTok t with
        | none => rw [hq] at h; cases h
        | some q =>
            rw [hq] at h
            cases hrec : parseRow nodata ts with
            | ok row2 =>
                rw [hrec] at h
                cases h
                simp [ih row2 hrec]
            | err t2 => rw [hrec] at h; cases h
            | panicked => rw [hrec] at h; cases h

theorem parseBodyGo_ok (checks : Bool) (nodata : String) (ncols : Nat) :
    ∀ ls : List (List String),
      (∀ l ∈ ls, (parseRow nodata l).isOk = true) →
      (checks = true → ∀ l ∈ ls, l.length = ncols) →
      ∃ rows, parseBodyGo checks nodata ncols ls = .ok rows ∧
        rows.length = ls.length := by
  intro ls
  induction ls with
  | nil => intro _ _; exact ⟨[], rfl, rfl⟩
  | cons l ls ih =>
      intro hok hlen
      have hok1 := hok l (List.mem_cons_self _ _)
      cases hr : parseRow nodata l with
      | err t => rw [hr] at hok1; simp [POutcome.isOk] at hok1
      | panicked => rw [hr] at hok1; simp [POutcome.isOk] at hok1
      | ok row =>
          have hrl : row.length = l.length := parseRow_length nodata l row hr
          have hcond : ¬ (checks = true ∧ row.length ≠ ncols) := by
            rintro ⟨hc, hne⟩
            exact hne (by rw [hrl]; exact hlen hc l (List.mem_cons_self _ _))
          obtain ⟨rows, hrows, hlens⟩ := ih (fun e he => hok e (List.mem_cons_of_mem _ he))
            (fun hc e he => hlen hc e (List.mem_cons_of_mem _ he))
          refine ⟨row :: rows, ?_, by simp [hlens]⟩
          simp only [parseBodyGo, hr]
          rw [if_neg hcond, hrows]

theorem parseBodyGo_mismatch (nodata : String) (ncols : Nat) :
    ∀ ls : List (List String),
      (∀ l ∈ ls, (parseRow nodata l).isOk = true) →
      (∃ l ∈ ls, l.length ≠ ncols) →
      parseBodyGo true nodata ncols ls = .panicked := by
  intro ls
  induction ls with
  | nil => intro _ hmis; simp at hmis
  | cons l ls ih =>
      intro hok hmis
      have hok1 := hok l (List.mem_cons_self _ _)
      cases hr : parseRow nodata l with
      | err t => rw [hr] at hok1; simp [POutcome.isOk] at hok1
      | panicked => rw [hr] at hok1; simp [POutcome.isOk] at hok1
      | ok row =>
          have hrl := parseRow_length nodata l row hr
          by_cases hl : l.length = ncols
          · have hmis2 : ∃ e ∈ ls, e.length ≠ ncols := by
              rcases hmis with ⟨e, he, hne⟩
              rcases List.mem_cons.mp he with rfl | he2
              · exact absurd hl hne
              · exact ⟨e, he2, hne⟩
            have hrec := ih (fun e he => hok e (List.mem_cons_of_mem _ he)) hmis2
            simp only [parseBodyGo, hr]
            rw [if_neg (by rintro ⟨_, hne⟩; exact hne (hrl.trans hl)), hrec]
          · simp only [parseBodyGo, hr]
            rw [if_pos ⟨by simp, by rw [hrl]; exact hl⟩]

/-! ### Tessellation (`gpwgen/src/generate.rs`)

`tessalate_grid` builds the raster cell's rectangle and asks the external
`h3ron::polygon_to_cells` for its covering cells at resolution 10; that
external geodetic capability enters the model as the opaque parameter
`cover`.  The `gen_to_disk` consumer writes `val / h3_indicies.len()` once
per covering address; it has no error outcome (sink writes are io). -/

/-- What the external geodetic capability returns for the raster cell at
(row, col). -/
abbrev CellCover := Nat → Nat → List HexAddress

/-- The records `gen_to_disk` emits for one raster cell: nothing for a
missing (NODATA) sample, otherwise one record per covering address carrying
the sample divided by the number of covering addresses. -/
def cellRecords (cover : CellCover) (sample : Option ℚ) (row col : Nat) :
    List (HexAddress × ℚ) :=
  match sample with
  | none => []
  | some val =>
      (cover row col).map (fun h => (h, val / ((cover row col).length : ℚ)))

/-- All records `gen_to_disk` emits for a grid body (the on-disk order is
scheduler-dependent; the collection of records is not). -/
def gridRecords (cover : CellCover) (data : List (List (Option ℚ))) :
    List (HexAddress × ℚ) :=
  (data.enum).flatMap (fun rc =>
    (rc.2.enum).flatMap (fun cs => cellRecords cover cs.2 rc.1 cs.1))

/-! ### The query server (`gpws/src/main.rs`)

The snapshot is the list of (address, value) entries deserialized from the
combine output.  `HexTreeMap::reduce` is external; `specReduce` is modelled
from the spec (section 4.5): collect every stored entry that is the queried
address itself, an ancestor of it, or a descendant of it, and sum the
matches; no match is "not found". -/

/-- Modelled from the spec (section 4.5): subtree-reduce of a query against
the loaded frontier entries. -/
def specReduce (entries : List (HexAddress × ℚ)) (q : HexAddress) : Option ℚ :=
  let ms := entries.filter (fun e => HexAddress.related e.1 q)
  if ms.isEmpty then none else some ((ms.map Prod.snd).sum)

/-- An HTTP response of the handler: 200 carrying the textual population
value, or 404. -/
inductive HttpResponse where
  | ok (population : ℚ)
  | notFound
deriving DecidableEq

/-- One hexadecimal digit (Rust accepts both cases). -/
def hexDigitVal (c : Char) : Option Nat :=
  if '0' ≤ c ∧ c ≤ '9' then some (c.toNat - 48)
  else if 'a' ≤ c ∧ c ≤ 'f' then some (c.toNat - 87)
  else if 'A' ≤ c ∧ c ≤ 'F' then some (c.toNat - 55)
  else none

def hexNatGo (cs : List Char) : Option Nat :=
  cs.foldl (fun acc c => acc.bind (fun n => (hexDigitVal c).map (fun d => 16 * n + d)))
    (some 0)

/-- Rust `u64::from_str_radix(s, 16)`: optional leading `+`, at least one
hex digit, and the value must fit in 64 bits. -/
def parseHexU64 (cs : List Char) : Option Nat :=
  match (match cs with | '+' :: rest => rest | _ => cs) with
  | [] => none
  | body =>
      match hexNatGo body with
      | none => none
      | some n => if n < 2 ^ 64 then some n else none

/-- The request handler of `gpws/src/main.rs`: strip the first byte of the
path (`&path[1..]`; for an HTTP GET origin-form path that byte is the
leading slash), parse the rest as hexadecimal, validate it as a cell
(`H3Cell::try_from`, external, passed in as `decodeCell`), reduce, and
answer 200 with the value or 404.  Paths are ASCII, modelled as character
lists. -/
def serveRequest (decodeCell : Nat → Option HexAddress)
    (entries : List (HexAddress × ℚ)) (path : List Char) : HttpResponse :=
  match parseHexU64 (path.drop 1) with
  | none => .notFound
  | some n =>
      match decodeCell n with
      | none => .notFound
      | some cell =>
          match specReduce entries cell with
          | none => .notFound
          | some pop => .ok pop

/-- What one request to the `src/src/main.rs` handler produces: a 200
response carrying the textual population, a 404, or a panic of the handler
task (`unwrap` on an `Err` — no response is produced at all). -/
inductive HandlerOutcome where
  | ok (population : ℚ)
  | notFound
  | panicked
deriving DecidableEq

/-- The request handler of `src/src/main.rs` (lines 34-50): it calls
`u64::from_str_radix(&path[1..], 16).unwrap()`, so an unparseable
remainder panics instead of producing a response.  On a parsed index it
answers 200 with the looked-up value or 404 on a miss; the unvalidated
cell construction (`H3Cell::new`) composed with the external
`HexTreeMap::get` is abstracted as the opaque `lookup`. -/
def serveRequestSrc (lookup : Nat → Option ℚ) (path : List Char) : HandlerOutcome :=
  match parseHexU64 (path.drop 1) with
  | none => .panicked
  | some n =>
      match lookup n with
      | some pop => .ok pop
      | none => .notFound

/-! ### Properties of the address relation -/

theorem related_self (a : HexAddress) : HexAddress.related a a = true := by
  simp [HexAddress.related, HexAddress.ancestorOrSelf]

theorem related_comm (a b : HexAddress) :
    HexAddress.related a b = HexAddress.related b a := by
  simp [HexAddress.related, Bool.or_comm]

theorem ancestorOrSelf_prop (a b : HexAddress) :
    HexAddress.ancestorOrSelf a b = true ↔ a.base = b.base ∧ a.digits <+: b.digits := by
  simp [HexAddress.ancestorOrSelf]

theorem ancestorOrSelf_trans {a b c : HexAddress}
    (h1 : HexAddress.ancestorOrSelf a b = true)
    (h2 : HexAddress.ancestorOrSelf b c = true) :
    HexAddress.ancestorOrSelf a c = true := by
  rw [ancestorOrSelf_prop] at h1 h2 ⊢
  exact ⟨h1.1.trans h2.1, h1.2.trans h2.2⟩

theorem filterSingleton {α : Type} (p : α → Bool) :
    ∀ (l : List α) (e : α), l.Nodup → e ∈ l → p e = true →
      (∀ e2 ∈ l, e2 ≠ e → p e2 = false) → l.filter p = [e] := by
  intro l
  induction l with
  | nil => intro e _ he; simp at he
  | cons hd tl ih =>
      intro e hnd he hpe hothers
      rw [List.nodup_cons] at hnd
      rcases List.mem_cons.mp he with rfl | he2
      · rw [List.filter_cons, if_pos hpe]
        have htl : tl.filter p = [] := List.filter_eq_nil_iff.mpr (fun a ha => by
          rw [hothers a (List.mem_cons_of_mem _ ha) (fun heq => hnd.1 (heq ▸ ha))]
          simp)
        rw [htl]
      · have hne : hd ≠ e := fun heq => hnd.1 (heq ▸ he2)
        rw [List.filter_cons, if_neg (by
          rw [hothers hd (List.mem_cons_self _ _) hne]
          simp)]
        exact ih e hnd.2 he2 hpe (fun e2 h2 => hothers e2 (List.mem_cons_of_mem _ h2))

theorem compact_isSome_iff (floor r : Nat) (ch : Fin 7 → Option ℚ) :
    (SummationCompactor.compact floor r ch).isSome = true ↔
      (floor ≤ r ∧ ∀ i, (ch i).isSome = true) := by
  unfold SummationCompactor.compact
  by_cases hr : r < floor
  · rw [if_pos hr]
    constructor
    · intro h; simp at h
    · rintro ⟨hle, _⟩; omega
  · rw [if_neg hr]
    by_cases hall : ∀ i, (ch i).isSome = true
    · rw [dif_pos hall]
      exact ⟨fun _ => ⟨by omega, hall⟩, fun _ => rfl⟩
    · rw [dif_neg hall]
      constructor
      · intro h; simp at h
      · rintro ⟨_, h2⟩; exact absurd h2 hall

theorem tryCompact_leaf_iff (floor r : Nat) (cs : Fin 7 → HexNode) :
    (∃ v, tryCompact floor r cs = .leaf v) ↔
      (floor ≤ r ∧ ∀ i, ∃ w, childValue (cs i) = some w) := by
  unfold tryCompact
  cases hc : SummationCompactor.compact floor r (fun i => childValue (cs i)) with
  | some v =>
      have h1 : (SummationCompactor.compact floor r
          (fun i => childValue (cs i))).isSome = true := by rw [hc]; rfl
      rw [compact_isSome_iff] at h1
      exact ⟨fun _ => ⟨h1.1, fun i => Option.isSome_iff_exists.mp (h1.2 i)⟩,
        fun _ => ⟨v, rfl⟩⟩
  | none =>
      constructor
      · rintro ⟨v, hv⟩; cases hv
      · rintro ⟨hle, hall⟩
        have h2 : (SummationCompactor.compact floor r
            (fun i => childValue (cs i))).isSome = true := by
          rw [compact_isSome_iff]
          exact ⟨hle, fun i => Option.isSome_iff_exists.mpr (hall i)⟩
        rw [hc] at h2
        simp at h2

theorem specReduce_spec (entries : List (HexAddress × ℚ))
    (hfr : entries.Pairwise (fun e1 e2 => HexAddress.related e1.1 e2.1 = false)) :
    (∀ a v, (a, v) ∈ entries → specReduce entries a = some v) ∧
    (∀ a v q, (a, v) ∈ entries → HexAddress.ancestorOrSelf a q = true → a ≠ q →
      specReduce entries q = some v) ∧
    (∀ q, (∀ e ∈ entries, HexAddress.ancestorOrSelf e.1 q = false) →
      entries.filter (fun e => HexAddress.ancestorOrSelf q e.1) ≠ [] →
      specReduce entries q = some
        (((entries.filter (fun e => HexAddress.ancestorOrSelf q e.1)).map Prod.snd).sum)) ∧
    (∀ q, (∀ e ∈ entries, HexAddress.related e.1 q = false) →
      specReduce entries q = none) := by
  have hsym : Symmetric (fun e1 e2 : HexAddress × ℚ =>
      HexAddress.related e1.1 e2.1 = false) := by
    intro x y h
    rw [related_comm]
    exact h
  have hforall := hfr.forall hsym
  have hnd : entries.Nodup := by
    refine hfr.imp ?_
    intro e1 e2 h
    rintro rfl
    rw [related_self] at h
    cases h
  refine ⟨?_, ?_, ?_, ?_⟩
  · intro a v hmem
    have hfil : entries.filter (fun e => HexAddress.related e.1 a) = [(a, v)] := by
      refine filterSingleton _ entries (a, v) hnd hmem (related_self a) ?_
      intro e2 he2 hne
      exact hforall he2 hmem hne
    simp only [specReduce]
    rw [hfil]
    simp
  · intro a v q hmem hanc hne
    have hfil : entries.filter (fun e => HexAddress.related e.1 q) = [(a, v)] := by
      refine filterSingleton _ entries (a, v) hnd hmem ?_ ?_
      · show HexAddress.related a q = true
        simp [HexAddress.related, hanc]
      · intro e2 he2 hne2
        show HexAddress.related e2.1 q = false
        by_contra hcon
        have hcon2 : HexAddress.related e2.1 q = true := by
          cases h2 : HexAddress.related e2.1 q
          · exact absurd h2 hcon
          · rfl
        have hrel : HexAddress.related e2.1 a = true := by
          simp only [HexAddress.related, Bool.or_eq_true] at hcon2
          rcases hcon2 with h3 | h3
          · rw [ancestorOrSelf_prop] at h3
            have hancp := ancestorOrSelf_prop a q |>.mp hanc
            rcases List.prefix_or_prefix_of_prefix h3.2 hancp.2 with hp | hp
            · have : HexAddress.ancestorOrSelf e2.1 a = true :=
                (ancestorOrSelf_prop _ _).mpr ⟨h3.1.trans hancp.1.symm, hp⟩
              simp [HexAddress.related, this]
            · have : HexAddress.ancestorOrSelf a e2.1 = true :=
                (ancestorOrSelf_prop _ _).mpr ⟨hancp.1.trans h3.1.symm, hp⟩
              simp [HexAddress.related, this]
          · have : HexAddress.ancestorOrSelf a e2.1 = true :=
              ancestorOrSelf_trans hanc h3
            simp [HexAddress.related, this]
        have hcontra := hforall he2 hmem hne2
        rw [hrel] at hcontra
        cases hcontra
    simp only [specReduce]
    rw [hfil]
    simp
  · intro q hno hne
    have hcong : entries.filter (fun e => HexAddress.related e.1 q) =
        entries.filter (fun e => HexAddress.ancestorOrSelf q e.1) := by
      apply List.filter_congr
      intro e he
      simp [HexAddress.related, hno e he]
    simp only [specReduce]
    rw [hcong, if_neg (by simpa [List.isEmpty_iff] using hne)]
  · intro q hno
    have hfil : entries.filter (fun e => HexAddress.related e.1 q) = [] :=
      List.filter_eq_nil_iff.mpr (fun e he => by simp [hno e he])
    simp only [specReduce]
    rw [hfil]
    rfl

theorem serveRequest_spec (decodeCell : Nat → Option HexAddress)
    (entries : List (HexAddress × ℚ)) (rest : List Char) :
    (serveRequest decodeCell entries ('/' :: rest) = .notFound ∨
      ∃ v, serveRequest decodeCell entries ('/' :: rest) = .ok v) ∧
    (parseHexU64 rest = none → serveRequest decodeCell entries ('/' :: rest) = .notFound) ∧
    (∀ n, parseHexU64 rest = some n → decodeCell n = none →
      serveRequest decodeCell entries ('/' :: rest) = .notFound) ∧
    (∀ n cell v, parseHexU64 rest = some n → decodeCell n = some cell →
      specReduce entries cell = some v →
      serveRequest decodeCell entries ('/' :: rest) = .ok v) ∧
    (∀ n cell, parseHexU64 rest = some n → decodeCell n = some cell →
      specReduce entries cell = none →
      serveRequest decodeCell entries ('/' :: rest) = .notFound) := by
  have hdrop : ('/' :: rest).drop 1 = rest := rfl
  refine ⟨?_, ?_, ?_, ?_, ?_⟩
  · rcases h1 : parseHexU64 rest with _ | n
    · left
      simp only [serveRequest, hdrop, h1]
    · rcases h2 : decodeCell n with _ | cell
      · left
        simp only [serveRequest, hdrop, h1, h2]
      · rcases h3 : specReduce entries cell with _ | pop
        · left
          simp only [serveRequest, hdrop, h1, h2, h3]
        · right
          exact ⟨pop, by simp only [serveRequest, hdrop, h1, h2, h3]⟩
  · intro h
    simp only [serveRequest, hdrop, h]
  · intro n h1 h2
    simp only [serveRequest, hdrop, h1, h2]
  · intro n cell v h1 h2 h3
    simp only [serveRequest, hdrop, h1, h2, h3]
  · intro n cell h1 h2 h3
    simp only [serveRequest, hdrop, h1, h2, h3]

theorem cellRecords_sum (cover : CellCover) (row col : Nat) (val : ℚ)
    (h : cover row col ≠ []) :
    ((cellRecords cover (some val) row col).map Prod.snd).sum = val := by
  have hlen : ((cover row col).length : ℚ) ≠ 0 :=
    Nat.cast_ne_zero.mpr (by simpa [List.length_eq_zero] using h)
  simp only [cellRecords]
  rw [List.map_map, show (Prod.snd ∘ fun h2 : HexAddress =>
      (h2, val / ((cover row col).length : ℚ))) =
      fun _ => val / ((cover row col).length : ℚ) from rfl,
    List.map_const', List.sum_replicate, nsmul_eq_mul, mul_comm,
    div_mul_cancel₀ val hlen]

/-! ### The claims -/

/-- C1, counterexample: a 13-byte source (one full 12-byte record plus one
stray byte) does NOT fail `combine`; the read loop breaks cleanly on the
`UnexpectedEof` raised inside the 8-byte address read and silently discards
the stray byte, returning the one decoded record. -/
theorem claim_C1_counterexample :
    combineIngest (List.replicate 13 0) = Except.ok [(0, 0)] ∧
      (combineIngest (List.replicate 13 0)).isOk = true :=
  ⟨rfl, by decide⟩

/-- C1 (amended): `combine` accepts a record stream exactly when EOF falls
on a 12-byte boundary or inside the 8-byte address field of a record
(`length % 12 < 8`), silently discarding up to seven trailing bytes and
returning one record per full 12-byte block; EOF inside the 4-byte value
field (`8 ≤ length % 12`) propagates the io error.  There is no
`MalformedRecordStream` error anywhere in the sources. -/
theorem claim_C1_amended (bs : List Nat) :
    ((combineIngest bs).isOk = true ↔ bs.length % 12 < 8) ∧
    (bs.length % 12 = 0 →
      ∃ recs, combineIngest bs = .ok recs ∧ recs.length = bs.length / 12) :=
  combineIngest_spec bs

/-- C1 witness: a clean 24-byte (two-record) stream is accepted. -/
theorem claim_C1_amended_witness :
    (combineIngest (List.replicate 24 0)).isOk = true :=
  (claim_C1_amended (List.replicate 24 0)).1.mpr (by decide)

/-- C2, counterexample: seven sibling records with values 1..7 at
resolution 1, combined with floor resolution F = 1 (the claim's "floor =
the siblings' resolution"), are NOT compacted into one parent record of
value 28: the candidate parent sits at resolution 0 < F, so the compactor
refuses and the seven records pass through unchanged. -/
theorem claim_C2_counterexample :
    combineOutput 1 (sevenSiblingRecords 0 []) ≠ [(⟨0, []⟩, 28)] := by
  decide

/-- C2 (amended): a stream of exactly seven sibling records with values
1..7 at resolution r, combined with floor resolution F = r − 1 (the
resolution of their parent), produces exactly one output record, keyed by
the parent address, with value 28.  (Here the parent is `⟨b, ds⟩`, the
seven children are at resolution `ds.length + 1`, and F = `ds.length`.) -/
theorem claim_C2_amended (b : Nat) (ds : List (Fin 7)) :
    combineOutput ds.length (sevenSiblingRecords b ds) = [(⟨b, ds⟩, 28)] :=
  combine_seven_siblings b ds

/-- C3: a candidate parent at resolution r is compacted exactly when
r ≥ F and all seven children are present — (1) the compactor answers
`some` exactly then, (2) the produced value is the seven children's sum,
(3) at the tree level a sibling array collapses to one entry exactly then —
and (4) when every inserted record is at resolution ≥ F, no frontier entry
of the built tree is coarser than F. -/
theorem claim_C3 (floor : Nat) :
    (∀ r ch, (SummationCompactor.compact floor r ch).isSome = true ↔
      (floor ≤ r ∧ ∀ i, (ch i).isSome = true)) ∧
    (∀ r (f : Fin 7 → ℚ), floor ≤ r →
      SummationCompactor.compact floor r (fun i => some (f i)) =
        some (f 0 + f 1 + f 2 + f 3 + f 4 + f 5 + f 6)) ∧
    (∀ r cs, (∃ v, tryCompact floor r cs = HexNode.leaf v) ↔
      (floor ≤ r ∧ ∀ i, ∃ w, childValue (cs i) = some w)) ∧
    (∀ recs, (∀ rec ∈ recs, floor ≤ rec.1.resolution) →
      ∀ rec ∈ combineOutput floor recs, floor ≤ rec.1.resolution) :=
  ⟨compact_isSome_iff floor,
    fun r f hr => compact_eq_some floor r f (by omega),
    tryCompact_leaf_iff floor,
    combineOutput_floor floor⟩

/-- C3 witness: with floor 1, a full sibling set at parent resolution 2 is
summed. -/
theorem claim_C3_witness :
    SummationCompactor.compact 1 2 (fun i => some ((i.val : ℚ) + 1)) =
      some ((((0 : Fin 7).val : ℚ) + 1) + (((1 : Fin 7).val : ℚ) + 1) +
        (((2 : Fin 7).val : ℚ) + 1) + (((3 : Fin 7).val : ℚ) + 1) +
        (((4 : Fin 7).val : ℚ) + 1) + (((5 : Fin 7).val : ℚ) + 1) +
        (((6 : Fin 7).val : ℚ) + 1)) :=
  (claim_C3 1).2.1 2 (fun i => (i.val : ℚ) + 1) (by decide)

/-- C4, counterexample: when the external geodetic capability returns an
empty covering set for a sampled cell of value 5, the records emitted for
that cell sum to 0, not 5 — the round-trip fails for that cell. -/
theorem claim_C4_counterexample :
    ((cellRecords (fun _ _ => ([] : List HexAddress)) (some 5) 0 0).map
      Prod.snd).sum ≠ (5 : ℚ) := by
  simp [cellRecords]

/-- C4 (amended): for every raster cell with a (non-NODATA) sample whose
covering-address set is nonempty, the emitted records sum exactly to the
sample (in the exact-rational model of f32), there is one record per
covering address, and each record carries the sample divided evenly by the
count of covering addresses. -/
theorem claim_C4_amended (cover : CellCover) (row col : Nat) (val : ℚ)
    (h : cover row col ≠ []) :
    ((cellRecords cover (some val) row col).map Prod.snd).sum = val ∧
    (cellRecords cover (some val) row col).length = (cover row col).length ∧
    ∀ rec ∈ cellRecords cover (some val) row col,
      rec.2 = val / ((cover row col).length : ℚ) := by
  refine ⟨cellRecords_sum cover row col val h, by simp [cellRecords], ?_⟩
  intro rec hrec
  simp only [cellRecords, List.mem_map] at hrec
  obtain ⟨a, _, heq⟩ := hrec
  subst heq
  rfl

/-- C4 witness: a cell of value 5 covered by two addresses reconstructs
to 5. -/
theorem claim_C4_amended_witness :
    ((cellRecords (fun _ _ => [(⟨0, []⟩ : HexAddress), ⟨1, []⟩]) (some 5) 0 0).map
      Prod.snd).sum = 5 :=
  (claim_C4_amended (fun _ _ => [⟨0, []⟩, ⟨1, []⟩]) 0 0 5 (by decide)).1

/-- A grid whose header announces 2 rows but whose body has 1. -/
def mismatchedGridLines : List (List String) :=
  [["ncols", "1"], ["nrows", "2"], ["xllcorner", "0"], ["yllcorner", "0"],
   ["cellsize", "1"], ["NODATA_value", "-9999"], ["1"]]

/-- C5, counterexample: on a row-count mismatch, `GpwAscii::parse` of
`gpwgen/src/gpwascii.rs` aborts via `assert_eq!` (it panics) — it does not
return a `ParseError` — and the `src/lib.rs` variant with debug assertions
disabled parses the mismatched grid successfully. -/
theorem claim_C5_counterexample :
    GpwAscii.parse mismatchedGridLines = POutcome.panicked ∧
    (GpwAscii.parse mismatchedGridLines).isErr = false ∧
    (GpwAsciiLib.parse false mismatchedGridLines).isOk = true :=
  ⟨by decide, by decide, by decide⟩

/-- C5 (amended): on any input whose header parses, whose body tokens all
parse, and whose body row count differs from `nrows` or some row's token
count differs from `ncols`, the gpwgen parser terminates with an assertion
panic rather than returning a `ParseError` (in every build configuration),
while the `src/lib.rs` variant with debug assertions disabled returns
success. -/
theorem claim_C5_amended (lines : List (List String)) (hdr : GpwAsciiHeader)
    (hhdr : GpwAsciiHeader.parse lines = .ok hdr)
    (hrows : ∀ l ∈ lines.drop 6, (parseRow hdr.nodata_value l).isOk = true)
    (hmis : (∃ l ∈ lines.drop 6, l.length ≠ hdr.ncols) ∨
      (lines.drop 6).length ≠ hdr.nrows) :
    GpwAscii.parse lines = POutcome.panicked ∧
      ∃ g, GpwAsciiLib.parse false lines = POutcome.ok g := by
  constructor
  · simp only [GpwAscii.parse, parseGrid, hhdr]
    rcases hmis with hmis | hcount
    · rw [parseBodyGo_mismatch hdr.nodata_value hdr.ncols _ hrows hmis]
    · by_cases htok : ∃ l ∈ lines.drop 6, l.length ≠ hdr.ncols
      · rw [parseBodyGo_mismatch hdr.nodata_value hdr.ncols _ hrows htok]
      · push_neg at htok
        obtain ⟨rows, hrows2, hlens⟩ :=
          parseBodyGo_ok true hdr.nodata_value hdr.ncols _ hrows (fun _ => htok)
        simp only [hrows2]
        rw [if_pos ⟨by simp, by rw [hlens]; exact hcount⟩]
  · simp only [GpwAsciiLib.parse, parseGrid, hhdr]
    obtain ⟨rows, hrows2, _⟩ := parseBodyGo_ok false hdr.nodata_value hdr.ncols _
      hrows (fun hc => absurd hc (by decide))
    simp only [hrows2]
    rw [if_neg (by rintro ⟨hc, _⟩; simp at hc)]
    exact ⟨⟨hdr, rows⟩, rfl⟩

/-- C5 witness: the amended statement at the concrete mismatched grid. -/
theorem claim_C5_amended_witness :
    GpwAscii.parse mismatchedGridLines = POutcome.panicked :=
  (claim_C5_amended mismatchedGridLines
    ⟨1, 2, ((0 : Nat) : ℚ), ((0 : Nat) : ℚ), ((1 : Nat) : ℚ), "-9999"⟩
    rfl (by decide) (Or.inr (by decide))).1

/-- A header whose `nrows` value fails to parse as an integer. -/
def badNrowsValueLines : List (List String) :=
  [["ncols", "1"], ["nrows", "abc"], ["xllcorner", "0"], ["yllcorner", "0"],
   ["cellsize", "1"], ["NODATA_value", "-9999"]]

/-- A header whose `nrows` line is missing its value. -/
def missingNrowsValueLines : List (List String) :=
  [["ncols", "1"], ["nrows"], ["xllcorner", "0"], ["yllcorner", "0"],
   ["cellsize", "1"], ["NODATA_value", "-9999"]]

/-- C6 (code-bug evidence): a type-parse failure of the `nrows` value is
tagged `"ncols"` (the source's copy-paste slip in the `map_err` of the
`nrows` branch), although the missing-value failure of the same field is
correctly tagged `"nrows"`. -/
theorem claim_C6_code_bug :
    GpwAsciiHeader.parse badNrowsValueLines = Except.error "ncols" ∧
    GpwAsciiHeader.parse missingNrowsValueLines = Except.error "nrows" :=
  ⟨rfl, rfl⟩

/-- C7: against a loaded snapshot satisfying the frontier invariant,
subtree-reduce returns the stored value on an exact hit; the ancestor
entry's value unchanged when the query is finer than a stored entry; the
sum of all stored descendants when the query is coarser; and "not found"
when no related entry exists. -/
theorem claim_C7 (entries : List (HexAddress × ℚ))
    (hfr : entries.Pairwise (fun e1 e2 => HexAddress.related e1.1 e2.1 = false)) :
    (∀ a v, (a, v) ∈ entries → specReduce entries a = some v) ∧
    (∀ a v q, (a, v) ∈ entries → HexAddress.ancestorOrSelf a q = true → a ≠ q →
      specReduce entries q = some v) ∧
    (∀ q, (∀ e ∈ entries, HexAddress.ancestorOrSelf e.1 q = false) →
      entries.filter (fun e => HexAddress.ancestorOrSelf q e.1) ≠ [] →
      specReduce entries q = some
        (((entries.filter (fun e => HexAddress.ancestorOrSelf q e.1)).map
          Prod.snd).sum)) ∧
    (∀ q, (∀ e ∈ entries, HexAddress.related e.1 q = false) →
      specReduce entries q = none) :=
  specReduce_spec entries hfr

/-- A two-entry frontier used as the C7 witness snapshot. -/
def frontierExample : List (HexAddress × ℚ) := [(⟨0, [0]⟩, 5), (⟨0, [1, 0]⟩, 7)]

/-- C7 witness: an exact frontier hit returns its stored value. -/
theorem claim_C7_witness :
    specReduce frontierExample ⟨0, [(0 : Fin 7)]⟩ = some 5 :=
  (claim_C7 frontierExample (by decide)).1 ⟨0, [0]⟩ 5 (List.mem_cons_self _ _)

/-- C8, counterexample: the handler in `src/src/main.rs` (one of the
claim's two cited handlers) unwraps the hexadecimal parse of the
slash-stripped path, so the GET request `/z` — an unparseable path —
panics the handler instead of yielding the claimed 404, whatever the
loaded map holds. -/
theorem claim_C8_counterexample :
    serveRequestSrc (fun _ => none) ['/', 'z'] = HandlerOutcome.panicked ∧
    serveRequestSrc (fun _ => none) ['/', 'z'] ≠ HandlerOutcome.notFound := by
  decide

/-- C8 (amended): for the `gpws/src/main.rs` handler the claim holds as
stated — for every GET request (origin-form path, so it starts with the
slash the handler strips), the response is always 200-with-value or 404,
never a crash: an unparseable remainder gives 404, an invalid cell index
gives 404, a reduce miss gives 404, and a reduce hit gives 200 with the
population value.  The `src/src/main.rs` variant instead panics on an
unparseable path (see the counterexample above). -/
theorem claim_C8 (decodeCell : Nat → Option HexAddress)
    (entries : List (HexAddress × ℚ)) (rest : List Char) :
    (serveRequest decodeCell entries ('/' :: rest) = .notFound ∨
      ∃ v, serveRequest decodeCell entries ('/' :: rest) = .ok v) ∧
    (parseHexU64 rest = none →
      serveRequest decodeCell entries ('/' :: rest) = .notFound) ∧
    (∀ n, parseHexU64 rest = some n → decodeCell n = none →
      serveRequest decodeCell entries ('/' :: rest) = .notFound) ∧
    (∀ n cell v, parseHexU64 rest = some n → decodeCell n = some cell →
      specReduce entries cell = some v →
      serveRequest decodeCell entries ('/' :: rest) = .ok v) ∧
    (∀ n cell, parseHexU64 rest = some n → decodeCell n = some cell →
      specReduce entries cell = none →
      serveRequest decodeCell entries ('/' :: rest) = .notFound) :=
  serveRequest_spec decodeCell entries rest

/-- C8 witness: a non-hexadecimal path yields 404. -/
theorem claim_C8_witness :
    serveRequest (fun _ => none) [] ['/', 'z'] = HttpResponse.notFound :=
  (claim_C8 (fun _ => none) [] ['z']).2.1 (by decide)

/-- C9: after any number of insertions into the combine tree (so in
particular at every intermediate state of a build, each of which is the
tree of some prefix of the record stream), no two stored addresses are
ancestor and descendant of one another: the stored set is a non-overlapping
frontier.  The underlying lemma holds for every trie, hence also across
every intra-insertion compaction step. -/
theorem claim_C9 (floor : Nat) (recs : List (HexAddress × ℚ)) :
    (combineOutput floor recs).Pairwise
      (fun p q => HexAddress.related p.1 q.1 = false) :=
  aggTree_records_pairwise _ (combine_keys_nodup floor recs)

/-- C10: when the external geodetic capability returns an empty covering
set for a sampled cell, tessellation emits no records for it and reports no
error (the emitting function is total); the cell behaves exactly as if it
had been NODATA — its value is silently dropped. -/
theorem claim_C10 (cover : CellCover) (val : ℚ) (row col : Nat)
    (h : cover row col = []) :
    cellRecords cover (some val) row col = [] ∧
    cellRecords cover (some val) row col = cellRecords cover none row col := by
  simp [cellRecords, h]

/-- C10 witness: the empty-cover cell of value 5 emits nothing. -/
theorem claim_C10_witness :
    cellRecords (fun _ _ => ([] : List HexAddress)) (some 5) 0 0 = [] :=
  (claim_C10 (fun _ _ => []) 5 0 0 rfl).1
